import Mathlib

/-!
Verification of the naive parser-combinator algebra
(`src/naive_parser_combinators/__init__.py`).

A parser maps a token sequence and a start index to a finite set of
`(value, endIndex)` pairs (the Python code returns a `frozenset`; we model
it as a `Finset`, with `DecidableEq` on the value type standing in for
Python's hashability requirement).
-/

namespace NaiveParserCombinators

/-- A parser is a function that takes a sequence of input tokens together with
an index within that sequence where parsing should begin, and returns a set
containing one element for each possible parse: an output value together with
the index where the parsing ended. -/
def Parser (α β : Type) : Type := List α → Nat → Finset (β × Nat)

/-- The parser that simply fails, i.e. has no way to parse the input. -/
def fail {α β : Type} : Parser α β := fun _ _ => ∅

/-- The parser that doesn't consume any tokens and simply outputs the unit
value (`None` in the Python source). -/
def noop {α : Type} : Parser α Unit := fun _ index => {((), index)}

/-- A parser that looks at the first token it encounters, calls `pred` on the
token and checks whether the result is `True`. If so, it consumes and outputs
the token. Otherwise, it fails. The Python guard
`index < len(tokens) and pred(tokens[index])` becomes a nested conditional. -/
def consume {α : Type} [DecidableEq α] (pred : α → Bool) : Parser α α :=
  fun tokens index =>
    if h : index < tokens.length then
      if pred (tokens.get ⟨index, h⟩) then {(tokens.get ⟨index, h⟩, index + 1)}
      else ∅
    else ∅

/-- A parser that delegates to `parser1` and `parser2`, in that order,
beginning `parser2` at the index where `parser1` ended, and outputting the
pair of outputs. The Python union-of-comprehensions becomes
`Finset.biUnion` of `Finset.image`. -/
def compose {α β γ : Type} [DecidableEq β] [DecidableEq γ]
    (parser1 : Parser α β) (parser2 : Parser α γ) : Parser α (β × γ) :=
  fun tokens index =>
    (parser1 tokens index).biUnion fun r1 =>
      (parser2 tokens r1.2).image fun r2 => ((r1.1, r2.1), r2.2)

/-- A parser that can parse the input in either the same way as `parser1` or
the same way as `parser2` (set union of the two result sets). -/
def either {α β : Type} [DecidableEq β]
    (parser1 parser2 : Parser α β) : Parser α β :=
  fun tokens index => parser1 tokens index ∪ parser2 tokens index

/-- A parser that delegates to `parser`, but applies `func` to the output. -/
def apply {α β γ : Type} [DecidableEq γ]
    (func : β → γ) (parser : Parser α β) : Parser α γ :=
  fun tokens index => (parser tokens index).image fun r => (func r.1, r.2)

/-- A parser that doesn't consume any tokens and simply outputs `value`. -/
def emit {α β : Type} [DecidableEq β] (value : β) : Parser α β :=
  apply (fun _ => value) noop

/-- A parser that looks at the first token it encounters, calls `pred` on the
token and checks whether the result is `True`. If so, it consumes the token,
calls `func` on the token and outputs the result. Otherwise, it fails. -/
def transform {α β : Type} [DecidableEq α] [DecidableEq β]
    (pred : α → Bool) (func : α → β) : Parser α β :=
  apply (fun token => func token) (consume pred)

/-- A parser that delegates to `parser1` and `parser2`, in that order,
beginning `parser2` at the index where `parser1` ended; if successful, it
calls `func` with the two outputs and outputs the result. -/
def combine {α β γ δ : Type} [DecidableEq β] [DecidableEq γ] [DecidableEq δ]
    (parser1 : Parser α β) (parser2 : Parser α γ)
    (func : β → γ → δ) : Parser α δ :=
  apply (fun r => func r.1 r.2) (compose parser1 parser2)

/-- Syntax of the closed combinator algebra: a term of `PExp α β` is a parser
over tokens of type `α` with value type `β` built from the algebra's
constructors (`fail`, `noop`, `consume`, `compose`, `either`, `apply`,
`emit`, `transform`, `combine`) and nothing else. The `DecidableEq`
arguments record the equality contract the value types must support
(Python's hashability requirement for frozenset members). -/
inductive PExp (α : Type) : Type → Type 1 where
  | fail (β : Type) : PExp α β
  | noop : PExp α Unit
  | consume (i : DecidableEq α) (pred : α → Bool) : PExp α α
  | compose {β γ : Type} (i1 : DecidableEq β) (i2 : DecidableEq γ) :
      PExp α β → PExp α γ → PExp α (β × γ)
  | either {β : Type} (i : DecidableEq β) :
      PExp α β → PExp α β → PExp α β
  | apply {β γ : Type} (i : DecidableEq γ) (func : β → γ) :
      PExp α β → PExp α γ
  | emit {β : Type} (i : DecidableEq β) (value : β) : PExp α β
  | transform {β : Type} (i1 : DecidableEq α) (i2 : DecidableEq β)
      (pred : α → Bool) (func : α → β) : PExp α β
  | combine {β γ δ : Type} (i1 : DecidableEq β) (i2 : DecidableEq γ)
      (i3 : DecidableEq δ) :
      PExp α β → PExp α γ → (β → γ → δ) → PExp α δ

/-- The parser a term of the algebra denotes: each constructor is interpreted
by the corresponding combinator of the source. -/
def PExp.denote {α : Type} : {β : Type} → PExp α β → Parser α β
  | _, .fail _ => NaiveParserCombinators.fail
  | _, .noop => NaiveParserCombinators.noop
  | _, .consume i pred => @NaiveParserCombinators.consume _ i pred
  | _, .compose i1 i2 p1 p2 =>
      @NaiveParserCombinators.compose _ _ _ i1 i2 p1.denote p2.denote
  | _, .either i p1 p2 =>
      @NaiveParserCombinators.either _ _ i p1.denote p2.denote
  | _, .apply i func p =>
      @NaiveParserCombinators.apply _ _ _ i func p.denote
  | _, .emit i value => @NaiveParserCombinators.emit _ _ i value
  | _, .transform i1 i2 pred func =>
      @NaiveParserCombinators.transform _ _ i1 i2 pred func
  | _, .combine i1 i2 i3 p1 p2 func =>
      @NaiveParserCombinators.combine _ _ _ _ i1 i2 i3 p1.denote p2.denote func

section Lemmas

variable {α β γ δ : Type}

/-- Membership in the result set of `consume`, unfolded. -/
theorem mem_consume_iff [DecidableEq α] (pred : α → Bool)
    (tokens : List α) (index : Nat) (r : α × Nat) :
    r ∈ consume pred tokens index ↔
      ∃ h : index < tokens.length,
        pred (tokens.get ⟨index, h⟩) = true ∧
        r = (tokens.get ⟨index, h⟩, index + 1) := by
  unfold consume
  split
  case isTrue h =>
    split
    case isTrue hp =>
      simp only [Finset.mem_singleton]
      exact ⟨fun hr => ⟨h, hp, hr⟩, fun ⟨_, _, hr⟩ => hr⟩
    case isFalse hp =>
      simp only [Finset.not_mem_empty, false_iff]
      rintro ⟨h', hp', _⟩
      exact hp (by simpa using hp')
  case isFalse h =>
    simp only [Finset.not_mem_empty, false_iff]
    rintro ⟨h', _, _⟩
    exact h h'

/-- Membership in the result set of `compose`, unfolded. -/
theorem mem_compose_iff [DecidableEq β] [DecidableEq γ]
    (parser1 : Parser α β) (parser2 : Parser α γ)
    (tokens : List α) (index : Nat) (r : (β × γ) × Nat) :
    r ∈ compose parser1 parser2 tokens index ↔
      ∃ value1 index1, (value1, index1) ∈ parser1 tokens index ∧
        ∃ value2 index2, (value2, index2) ∈ parser2 tokens index1 ∧
          r = ((value1, value2), index2) := by
  unfold compose
  simp only [Finset.mem_biUnion, Finset.mem_image, Prod.exists]
  constructor
  · rintro ⟨v1, i1, h1, v2, i2, h2, hr⟩
    exact ⟨v1, i1, h1, v2, i2, h2, hr.symm⟩
  · rintro ⟨v1, i1, h1, v2, i2, h2, hr⟩
    exact ⟨v1, i1, h1, v2, i2, h2, hr.symm⟩

/-- Membership in the result set of `apply`, unfolded. -/
theorem mem_apply_iff [DecidableEq γ] (func : β → γ) (parser : Parser α β)
    (tokens : List α) (index : Nat) (r : γ × Nat) :
    r ∈ apply func parser tokens index ↔
      ∃ value, (value, r.2) ∈ parser tokens index ∧ r.1 = func value := by
  obtain ⟨w, e⟩ := r
  unfold apply
  simp only [Finset.mem_image, Prod.exists]
  constructor
  · rintro ⟨v, e1, hv, hr⟩
    injection hr with h1 h2
    subst h1
    subst h2
    exact ⟨v, hv, rfl⟩
  · rintro ⟨v, hv, hr⟩
    exact ⟨v, e, hv, by rw [hr]⟩

end Lemmas

section Bounds

variable {α β γ δ : Type}

/-- The index invariant: every `(value, endIndex)` a parser produces for
`tokens` at a start index within bounds satisfies
`index ≤ endIndex ≤ tokens.length`. -/
def BoundedEnds (p : Parser α β) : Prop :=
  ∀ (tokens : List α) (index : Nat), index ≤ tokens.length →
    ∀ r ∈ p tokens index, index ≤ r.2 ∧ r.2 ≤ tokens.length

theorem fail_boundedEnds : BoundedEnds (@fail α β) := by
  intro tokens index _ r hr
  exact absurd hr (Finset.not_mem_empty _)

theorem noop_boundedEnds : BoundedEnds (@noop α) := by
  intro tokens index h r hr
  unfold noop at hr
  rw [Finset.mem_singleton] at hr
  subst hr
  exact ⟨le_refl _, h⟩

theorem consume_boundedEnds [DecidableEq α] (pred : α → Bool) :
    BoundedEnds (consume pred) := by
  intro tokens index h r hr
  rw [mem_consume_iff] at hr
  obtain ⟨hlt, _, hr⟩ := hr
  subst hr
  exact ⟨Nat.le_succ _, hlt⟩

theorem compose_boundedEnds [DecidableEq β] [DecidableEq γ]
    {p1 : Parser α β} {p2 : Parser α γ}
    (h1 : BoundedEnds p1) (h2 : BoundedEnds p2) :
    BoundedEnds (compose p1 p2) := by
  intro tokens index h r hr
  rw [mem_compose_iff] at hr
  obtain ⟨v1, i1, hm1, v2, i2, hm2, hr⟩ := hr
  subst hr
  obtain ⟨ha, hb⟩ := h1 tokens index h (v1, i1) hm1
  obtain ⟨hc, hd⟩ := h2 tokens i1 hb (v2, i2) hm2
  exact ⟨le_trans ha hc, hd⟩

theorem either_boundedEnds [DecidableEq β] {p1 p2 : Parser α β}
    (h1 : BoundedEnds p1) (h2 : BoundedEnds p2) :
    BoundedEnds (either p1 p2) := by
  intro tokens index h r hr
  unfold either at hr
  rw [Finset.mem_union] at hr
  rcases hr with hr | hr
  · exact h1 tokens index h r hr
  · exact h2 tokens index h r hr

theorem apply_boundedEnds [DecidableEq γ] (func : β → γ)
    {p : Parser α β} (hp : BoundedEnds p) :
    BoundedEnds (apply func p) := by
  intro tokens index h r hr
  rw [mem_apply_iff] at hr
  obtain ⟨v, hv, _⟩ := hr
  exact hp tokens index h (v, r.2) hv

theorem emit_boundedEnds [DecidableEq β] (value : β) :
    BoundedEnds (@emit α β _ value) :=
  apply_boundedEnds _ noop_boundedEnds

theorem transform_boundedEnds [DecidableEq α] [DecidableEq β]
    (pred : α → Bool) (func : α → β) :
    BoundedEnds (transform pred func) :=
  apply_boundedEnds _ (consume_boundedEnds pred)

theorem combine_boundedEnds [DecidableEq β] [DecidableEq γ] [DecidableEq δ]
    {p1 : Parser α β} {p2 : Parser α γ} (func : β → γ → δ)
    (h1 : BoundedEnds p1) (h2 : BoundedEnds p2) :
    BoundedEnds (combine p1 p2 func) :=
  apply_boundedEnds _ (compose_boundedEnds h1 h2)

theorem denote_boundedEnds {β : Type} (e : PExp α β) :
    BoundedEnds e.denote := by
  induction e with
  | fail _ => exact fail_boundedEnds
  | noop => exact noop_boundedEnds
  | consume i pred => exact @consume_boundedEnds _ i pred
  | compose i1 i2 p1 p2 ih1 ih2 =>
      exact @compose_boundedEnds _ _ _ i1 i2 _ _ ih1 ih2
  | either i p1 p2 ih1 ih2 =>
      exact @either_boundedEnds _ _ i _ _ ih1 ih2
  | apply i func p ih => exact @apply_boundedEnds _ _ _ i func _ ih
  | emit i value => exact @emit_boundedEnds _ _ i value
  | transform i1 i2 pred func =>
      exact @transform_boundedEnds _ _ i1 i2 pred func
  | combine i1 i2 i3 p1 p2 func ih1 ih2 =>
      exact @combine_boundedEnds _ _ _ _ i1 i2 i3 _ _ func ih1 ih2

end Bounds

section Scenario

/-- The token sequence `['1', '+', '2']` from the spec's concrete scenario. -/
def scenarioTokens : List Char := ['1', '+', '2']

/-- Converts a digit character to its numeric value. -/
def toIntValue (c : Char) : Nat := c.toNat - 48

/-- A parser for a single digit token, outputting its numeric value. -/
def digit : Parser Char Nat := transform Char.isDigit toIntValue

/-- A parser consuming a single `'+'` token. -/
def plus : Parser Char Char := consume (fun c => c == '+')

/-- The scenario grammar: a digit, a plus sign and a digit, outputting the
sum of the two digit values. -/
def sum : Parser Char Nat :=
  combine digit (combine plus digit (fun _ d => d)) (fun a b => a + b)

end Scenario

section Claims

variable {α β γ δ : Type}

/-- C1: the result set of `compose parser1 parser2` is exactly the set of
pairs `((value1, value2), position2)` such that `(value1, position1)` is a
result of `parser1` at the start position and `(value2, position2)` is a
result of `parser2` run at `position1`; in particular the composition is
empty when `parser1` is empty, and empty when every sub-invocation of
`parser2` is empty. -/
theorem compose_result_set_characterization [DecidableEq β] [DecidableEq γ]
    (parser1 : Parser α β) (parser2 : Parser α γ)
    (tokens : List α) (index : Nat) :
    (∀ value1 value2 position2,
       ((value1, value2), position2) ∈ compose parser1 parser2 tokens index ↔
         ∃ position1, (value1, position1) ∈ parser1 tokens index ∧
           (value2, position2) ∈ parser2 tokens position1) ∧
    (parser1 tokens index = ∅ → compose parser1 parser2 tokens index = ∅) ∧
    ((∀ value1 position1, (value1, position1) ∈ parser1 tokens index →
        parser2 tokens position1 = ∅) →
      compose parser1 parser2 tokens index = ∅) := by
  refine ⟨?_, ?_, ?_⟩
  · intro value1 value2 position2
    rw [mem_compose_iff]
    constructor
    · rintro ⟨w1, i1, h1, w2, i2, h2, hr⟩
      injection hr with h3 h4
      injection h3 with h5 h6
      subst h5; subst h6; subst h4
      exact ⟨i1, h1, h2⟩
    · rintro ⟨position1, h1, h2⟩
      exact ⟨value1, position1, h1, value2, position2, h2, rfl⟩
  · intro h
    unfold compose
    rw [h, Finset.biUnion_empty]
  · intro h
    ext r
    simp only [Finset.not_mem_empty, iff_false]
    rw [mem_compose_iff]
    rintro ⟨v1, i1, h1, v2, i2, h2, _⟩
    rw [h v1 i1 h1] at h2
    exact Finset.not_mem_empty _ h2

/-- C2: for every parser built from the algebra's constructors, every token
sequence and every start index with `index ≤ tokens.length`, every
`(value, endPosition)` pair in the returned result set satisfies
`index ≤ endPosition ≤ tokens.length`: no parser reports an end position
behind its start. -/
theorem pexp_end_position_invariant {β : Type} (e : PExp α β)
    (tokens : List α) (index : Nat) (h : index ≤ tokens.length)
    (value : β) (endPosition : Nat)
    (hmem : (value, endPosition) ∈ e.denote tokens index) :
    index ≤ endPosition ∧ endPosition ≤ tokens.length :=
  denote_boundedEnds e tokens index h (value, endPosition) hmem

/-- Witness for C2: the invariant instantiated at the one-constructor
grammar `consume id` on the single-token input `[true]` at index 0. -/
theorem pexp_end_position_invariant_witness : 0 ≤ 1 ∧ 1 ≤ 1 :=
  pexp_end_position_invariant
    (PExp.consume instDecidableEqBool (fun t => t)) [true] 0 (by decide)
    true 1 (by decide)

/-- C3: `consume pred` returns the empty result set when the index is past
the end of the tokens or the predicate rejects the token there, and
otherwise exactly the singleton `{(tokens[index], index + 1)}`. -/
theorem consume_result_set [DecidableEq α] (pred : α → Bool)
    (tokens : List α) (index : Nat) :
    (tokens.length ≤ index → consume pred tokens index = ∅) ∧
    (∀ h : index < tokens.length,
      (pred (tokens.get ⟨index, h⟩) = false →
        consume pred tokens index = ∅) ∧
      (pred (tokens.get ⟨index, h⟩) = true →
        consume pred tokens index =
          {(tokens.get ⟨index, h⟩, index + 1)})) := by
  refine ⟨?_, ?_⟩
  · intro h
    unfold consume
    rw [dif_neg (by omega)]
  · intro h
    refine ⟨?_, ?_⟩
    · intro hp
      unfold consume
      rw [dif_pos h, if_neg (by simpa using hp)]
    · intro hp
      unfold consume
      rw [dif_pos h, if_pos hp]

/-- C4: `either parser1 parser2` returns the set union of the two result
sets at the same position, and is therefore commutative. -/
theorem either_union_comm [DecidableEq β]
    (parser1 parser2 : Parser α β) (tokens : List α) (index : Nat) :
    either parser1 parser2 tokens index =
      parser1 tokens index ∪ parser2 tokens index ∧
    either parser1 parser2 tokens index =
      either parser2 parser1 tokens index := by
  refine ⟨rfl, ?_⟩
  unfold either
  exact Finset.union_comm _ _

/-- C5: `apply func parser` is empty exactly when `parser` is empty, and
every result keeps the end position of the result of `parser` it was mapped
from: only the value component changes. -/
theorem apply_preserves_end_positions [DecidableEq γ]
    (func : β → γ) (parser : Parser α β) (tokens : List α) (index : Nat) :
    (apply func parser tokens index = ∅ ↔ parser tokens index = ∅) ∧
    (∀ w e, (w, e) ∈ apply func parser tokens index ↔
       ∃ v, (v, e) ∈ parser tokens index ∧ w = func v) := by
  refine ⟨?_, ?_⟩
  · unfold apply
    exact Finset.image_eq_empty
  · intro w e
    exact mem_apply_iff func parser tokens index (w, e)

/-- C6: `apply` satisfies the functor laws: mapping the identity gives the
same result set, and mapping `g` after `f` equals mapping `g ∘ f`. -/
theorem apply_functor_laws [DecidableEq β] [DecidableEq γ] [DecidableEq δ]
    (parser : Parser α β) (f : β → γ) (g : γ → δ)
    (tokens : List α) (index : Nat) :
    apply id parser tokens index = parser tokens index ∧
    apply g (apply f parser) tokens index =
      apply (g ∘ f) parser tokens index := by
  constructor
  · unfold apply
    simp
  · unfold apply
    rw [Finset.image_image]
    rfl

/-- C7: `fail` always returns the empty result set, and is a two-sided
identity for `either`. -/
theorem fail_identity_for_either [DecidableEq β]
    (parser : Parser α β) (tokens : List α) (index : Nat) :
    either fail parser tokens index = parser tokens index ∧
    either parser fail tokens index = parser tokens index ∧
    @fail α β tokens index = ∅ := by
  refine ⟨?_, ?_, rfl⟩
  · unfold either fail
    exact Finset.empty_union _
  · unfold either fail
    exact Finset.union_empty _

/-- C9: `combine parser1 parser2 func` equals applying the uncurried `func`
to the pair output of `compose parser1 parser2`; it introduces no behavior
beyond this composition. -/
theorem combine_eq_apply_compose
    [DecidableEq β] [DecidableEq γ] [DecidableEq δ]
    (parser1 : Parser α β) (parser2 : Parser α γ) (func : β → γ → δ)
    (tokens : List α) (index : Nat) :
    combine parser1 parser2 func tokens index =
      apply (fun r => func r.1 r.2) (compose parser1 parser2) tokens index :=
  rfl

/-- C8: on the token sequence `['1', '+', '2']`, the scenario grammar
`sum = combine digit (combine plus digit (fun _ d => d)) (fun a b => a + b)`
invoked at index 0 yields exactly the singleton result set `{(3, 3)}`:
one result, value 3, end position 3. -/
theorem sum_scenario : sum scenarioTokens 0 = {(3, 3)} := by decide

/-- C10: `either parser parser` yields the same result set as `parser`
alone: alternation is idempotent under set semantics. -/
theorem either_idempotent [DecidableEq β]
    (parser : Parser α β) (tokens : List α) (index : Nat) :
    either parser parser tokens index = parser tokens index := by
  unfold either
  exact Finset.union_self _

end Claims

end NaiveParserCombinators
